import Mathlib

/-!
Verification of `pocket_dedupe.py`: a shallow embedding of the script's
URL-normalisation and duplicate-scan logic, together with proofs of the
specification's claims about it.

Python strings are modelled as `List Char`; Python substring search
(`str.index` / the `in` operator) is modelled by `findSub`; the script's
console prints, queued API actions, the confirmation prompt and the final
commit are modelled as an explicit trace of `Event`s.  Pocket session
objects are modelled as opaque identifiers (`Nat`), which lets the source's
reference to the module-global `PocketInstance` binding (line 148) be
distinguished from the function parameter `pocket_instance`.
-/

namespace PocketDedupe

/-- Python strings, modelled as lists of characters. -/
abbrev Str := List Char

/-- The module constant `STRIP_PARAMETERS` (lines 24-29 of the source). -/
def STRIP_PARAMETERS : List Str :=
  ["?utm".data, "&utm".data, "?CMP".data, "&CMP".data]

/-- Python substring search: `findSub pat s` is `some i` when `i` is the
smallest index at which `pat` occurs in `s` (the value of `s.index(pat)`),
and `none` when `pat` does not occur in `s` (`s.index(pat)` raises
`ValueError`; the `in` operator returns `False`). -/
def findSub (pat : Str) : Str → Option Nat
  | [] => if pat.isPrefixOf ([] : Str) then some 0 else none
  | c :: rest =>
    if pat.isPrefixOf (c :: rest) then some 0
    else (findSub pat rest).map (fun i => i + 1)

/-- The source's `strip_url` (lines 86-99): `url[:url.index(char)]`, with the
`ValueError` branch returning `url` unchanged. -/
def strip_url (url char : Str) : Str :=
  match findSub char url with
  | some i => url.take i
  | none => url

/-- The marker loop of `queue_dedupe_actions` (lines 140-142): for each
`param` in order, `if param in article_url: article_url = strip_url(article_url, param)`. -/
def stripParams : List Str → Str → Str
  | [], url => url
  | p :: ps, url =>
    stripParams ps (if (findSub p url).isSome then strip_url url p else url)

/-- A URL after the full pass over `STRIP_PARAMETERS` — the spec's
"normalized URL". -/
def normalize (url : Str) : Str :=
  stripParams STRIP_PARAMETERS url

/-- One Pocket article record, as read from the API response item
(lines 136-137): its `item_id` and `given_url` fields. -/
structure Article where
  item_id : Str
  given_url : Str

deriving instance DecidableEq for Article

/-- Observable effects of the script: console prints, queued delete actions
(tagged with the session identifier they are queued on), the confirmation
prompt, and the final commit. -/
inductive Event where
  | printFound (msg : String)
  | printDuplicate (originalUrl : Str)
  | queueDelete (session : Nat) (articleId : Str)
  | printTracked (originalUrl : Str)
  | promptConfirmation
  | commit (session : Nat)
  | printRequestSent
  | printNotSent (reported : Str)
  | printFinished

deriving instance DecidableEq for Event

/-- The f-string of line 130: `f"Found {len(items_list)} articles."`. -/
def foundMessage (n : Nat) : String :=
  "Found " ++ Nat.repr n ++ " articles."

/-- One iteration of the scan loop (lines 134-157), acting on the current
`article_cache`.  `PocketInstance` is the session identifier the delete is
queued on: the source's line 148 reads `PocketInstance.delete(article_id)`,
naming the module-global binding, not the `pocket_instance` parameter.
Returns the updated cache and the events this iteration emits. -/
def dedupeStep (PocketInstance : Nat) (cache : List Str) (item : Article) :
    List Str × List Event :=
  let article_url := normalize item.given_url
  if article_url ∈ cache then
    (cache, [Event.printDuplicate item.given_url,
             Event.queueDelete PocketInstance item.item_id])
  else
    (cache ++ [article_url],
     if article_url ≠ item.given_url then [Event.printTracked item.given_url]
     else [])

/-- The scan loop folded over the article list, threading `article_cache`
(initialised to `[]` at line 132). -/
def dedupeScan (PocketInstance : Nat) : List Article → List Str → List Str × List Event
  | [], cache => (cache, [])
  | item :: rest, cache =>
    let step := dedupeStep PocketInstance cache item
    let restRes := dedupeScan PocketInstance rest step.1
    (restRes.1, step.2 ++ restRes.2)

/-- The source's `queue_dedupe_actions` (lines 102-157), abstracted over the
fetched article list.  It takes the `pocket_instance` parameter it declares
and, separately, the module-global `PocketInstance` binding that line 148
actually queues deletions on. -/
def queue_dedupe_actions (pocket_instance : Nat) (PocketInstance : Nat)
    (items : List Article) : List Event :=
  Event.printFound (foundMessage items.length) ::
    (dedupeScan PocketInstance items []).2

/-- The code points CPython's argumentless `str.strip()` removes: the
Unicode whitespace set of `Py_UNICODE_ISSPACE` (ASCII whitespace and
separators, NEL, NBSP, Ogham space mark, the U+2000 range, line and
paragraph separators, narrow and medium spaces, ideographic space). -/
def PY_WHITESPACE : List Nat :=
  [0x09, 0x0A, 0x0B, 0x0C, 0x0D, 0x1C, 0x1D, 0x1E, 0x1F, 0x20, 0x85, 0xA0,
   0x1680, 0x2000, 0x2001, 0x2002, 0x2003, 0x2004, 0x2005, 0x2006, 0x2007,
   0x2008, 0x2009, 0x200A, 0x2028, 0x2029, 0x202F, 0x205F, 0x3000]

/-- Whether a character is removed by Python's argumentless
`str.strip()`. -/
def isPySpace (c : Char) : Bool :=
  PY_WHITESPACE.contains c.toNat

/-- Python `str.strip()`: remove leading and trailing Unicode
whitespace. -/
def pyStrip (s : Str) : Str :=
  ((s.dropWhile isPySpace).reverse.dropWhile isPySpace).reverse

/-- The `__main__` block (lines 162-175), abstracted over the fetched
article list and the raw confirmation line read at line 167.  The scan runs
with the parameter and the global binding both equal to `PocketInstance`
(line 165 passes the global as the argument), then the confirmation prompt
is shown, the input is stripped, and the commit happens exactly when the
stripped input equals `"y"` (line 169); otherwise the stripped input is
reported back. -/
def main_script (PocketInstance : Nat) (items : List Article) (rawInput : Str) :
    List Event :=
  queue_dedupe_actions PocketInstance PocketInstance items
    ++ [Event.promptConfirmation]
    ++ (let user_input := pyStrip rawInput
        if user_input = "y".data then
          [Event.commit PocketInstance, Event.printRequestSent]
        else
          [Event.printNotSent user_input])
    ++ [Event.printFinished]

/-- The spec's "sequence of distinct normalized URLs in first-occurrence
order": keep each string the first time it appears, `seen` being the
strings already kept.  Used to state the cache invariant. -/
def firstOccurrences (seen : List Str) : List Str → List Str
  | [] => []
  | u :: rest =>
    if u ∈ seen then firstOccurrences seen rest
    else u :: firstOccurrences (seen ++ [u]) rest

/-- The first article of the spec's worked scenario (section 8). -/
def exItem1 : Article := ⟨"1".data, "https://a.com/x?utm=1".data⟩

/-- The second article of the spec's worked scenario (section 8). -/
def exItem2 : Article := ⟨"2".data, "https://a.com/x".data⟩

/-- The third article of the spec's worked scenario (section 8). -/
def exItem3 : Article := ⟨"3".data, "https://b.com/y".data⟩

/-- The spec's worked scenario list (section 8). -/
def exampleItems : List Article := [exItem1, exItem2, exItem3]

/-! ### Basic facts about `findSub` (Python substring search) -/

/-- Boolean prefix test agrees with the propositional one. -/
theorem isPrefixOf_eq (p s : Str) : p.isPrefixOf s = true ↔ p <+: s := by
  simp

/-- When `findSub` returns `some i`, the pattern occurs at `i` and at no
earlier index. -/
theorem findSub_some {p : Str} : ∀ {s : Str} {i : Nat}, findSub p s = some i →
    p <+: s.drop i ∧ ∀ j, j < i → ¬ p <+: s.drop j := by
  intro s
  induction s with
  | nil =>
    intro i h
    unfold findSub at h
    by_cases hp : p.isPrefixOf ([] : Str)
    · rw [if_pos hp] at h
      cases h
      exact ⟨(isPrefixOf_eq p []).mp hp, fun j hj => absurd hj (by omega)⟩
    · rw [if_neg hp] at h
      cases h
  | cons c rest ih =>
    intro i h
    unfold findSub at h
    by_cases hp : p.isPrefixOf (c :: rest)
    · rw [if_pos hp] at h
      cases h
      exact ⟨(isPrefixOf_eq p (c :: rest)).mp hp, fun j hj => absurd hj (by omega)⟩
    · rw [if_neg hp] at h
      match hrec : findSub p rest with
      | none => rw [hrec] at h; cases h
      | some i0 =>
        rw [hrec] at h
        have hi : i = i0 + 1 := by simpa using h.symm
        subst hi
        obtain ⟨h1, h2⟩ := ih hrec
        refine ⟨h1, ?_⟩
        intro j hj
        match j with
        | 0 =>
          simpa using fun hc => hp ((isPrefixOf_eq p (c :: rest)).mpr hc)
        | j + 1 =>
          exact h2 j (by omega)

/-- When `findSub` returns `none`, the pattern occurs nowhere. -/
theorem findSub_none {p : Str} : ∀ {s : Str}, findSub p s = none →
    ∀ j, ¬ p <+: s.drop j := by
  intro s
  induction s with
  | nil =>
    intro h j
    unfold findSub at h
    by_cases hp : p.isPrefixOf ([] : Str)
    · rw [if_pos hp] at h; cases h
    · rw [if_neg hp] at h
      simpa using fun hc => hp ((isPrefixOf_eq p _).mpr (by simpa using hc))
  | cons c rest ih =>
    intro h j
    unfold findSub at h
    by_cases hp : p.isPrefixOf (c :: rest)
    · rw [if_pos hp] at h; cases h
    · rw [if_neg hp] at h
      match hrec : findSub p rest with
      | some i0 => rw [hrec] at h; cases h
      | none =>
        match j with
        | 0 => exact fun hc => hp ((isPrefixOf_eq p _).mpr hc)
        | j + 1 => exact ih hrec j

/-- If the pattern occurs somewhere, `findSub` finds an occurrence at or
before it. -/
theorem findSub_complete {p : Str} : ∀ {s : Str} {j : Nat}, p <+: s.drop j →
    ∃ i, findSub p s = some i ∧ i ≤ j := by
  intro s
  induction s with
  | nil =>
    intro j h
    have hp : p.isPrefixOf ([] : Str) := (isPrefixOf_eq p []).mpr (by simpa using h)
    exact ⟨0, by unfold findSub; rw [if_pos hp], Nat.zero_le j⟩
  | cons c rest ih =>
    intro j h
    by_cases hp : p.isPrefixOf (c :: rest)
    · exact ⟨0, by unfold findSub; rw [if_pos hp], Nat.zero_le j⟩
    · match j with
      | 0 => exact absurd ((isPrefixOf_eq p _).mpr h) hp
      | j + 1 =>
        obtain ⟨i, hi, hle⟩ := ih (by simpa using h)
        refine ⟨i + 1, ?_, by omega⟩
        unfold findSub
        rw [if_neg hp, hi]
        rfl

/-- `findSub` succeeds exactly when the pattern occurs somewhere. -/
theorem findSub_isSome_iff {p s : Str} :
    (findSub p s).isSome = true ↔ ∃ j, p <+: s.drop j := by
  constructor
  · intro h
    match hfs : findSub p s with
    | none => rw [hfs] at h; cases h
    | some i => exact ⟨i, (findSub_some hfs).1⟩
  · rintro ⟨j, hj⟩
    obtain ⟨i, hi, _⟩ := findSub_complete hj
    rw [hi]; rfl

/-- The first occurrence: an occurrence with none before it is the one
`findSub` returns. -/
theorem findSub_eq_of_min {p s : Str} {j : Nat} (hj : p <+: s.drop j)
    (hmin : ∀ k, k < j → ¬ p <+: s.drop k) : findSub p s = some j := by
  obtain ⟨i, hi, hle⟩ := findSub_complete hj
  obtain ⟨h1, _⟩ := findSub_some hi
  rcases Nat.lt_or_ge i j with hlt | hge
  · exact absurd h1 (hmin i hlt)
  · have : i = j := by omega
    rw [hi, this]

/-- `findSub` returns `none` exactly when the pattern occurs nowhere. -/
theorem findSub_eq_none_iff {p s : Str} :
    findSub p s = none ↔ ∀ j, ¬ p <+: s.drop j := by
  constructor
  · exact findSub_none
  · intro h
    match hfs : findSub p s with
    | none => rfl
    | some i => exact absurd (findSub_some hfs).1 (h i)

/-! ### Occurrences and truncation -/

/-- Taking an initial segment preserves having the segment as a prefix. -/
theorem take_pref (i : Nat) (s : Str) : s.take i <+: s := by
  exact List.take_prefix i s

/-- An occurrence inside a truncated string is an occurrence in the
original string. -/
theorem occ_of_take_occ {p s : Str} {i j : Nat} (h : p <+: (s.take i).drop j) :
    p <+: s.drop j :=
  h.trans ((take_pref i s).drop j)

/-- An occurrence that fits entirely inside the first `i` characters is an
occurrence in the truncated string. -/
theorem take_occ_of_occ {p s : Str} {i j : Nat} (h : p <+: s.drop j)
    (hfit : j + p.length ≤ i) : p <+: (s.take i).drop j := by
  rw [ List.drop_take]
  exact List.prefix_take_iff.mpr ⟨h, by omega⟩

/-- A string absent from `s` is absent from every prefix of `s`. -/
theorem absent_of_pref {p s t : Str} (habs : findSub p s = none) (hpre : t <+: s) :
    findSub p t = none := by
  rw [findSub_eq_none_iff] at habs ⊢
  intro j hc
  have ht : t = s.take t.length := List.prefix_iff_eq_take.mp hpre
  rw [ht] at hc
  exact habs j (occ_of_take_occ hc)

/-- Searching for the empty pattern always succeeds at index `0`. -/
theorem findSub_nil_pat (s : Str) : findSub ([] : Str) s = some 0 := by
  match s with
  | [] => unfold findSub; rw [if_pos (by simp)]
  | c :: rest => unfold findSub; rw [if_pos (by simp)]

/-- Searching a truncation: a first occurrence inside `s.take i` is the
first occurrence inside `s`. -/
theorem findSub_take_some {p s : Str} {i j : Nat}
    (h : findSub p (s.take i) = some j) : findSub p s = some j := by
  match p with
  | [] =>
    have h0 := findSub_nil_pat (s.take i)
    rw [h] at h0
    cases h0
    exact findSub_nil_pat s
  | a :: as =>
    obtain ⟨h1, h2⟩ := findSub_some h
    have hplen : 0 < (a :: as).length := by simp
    have hti : (s.take i).length ≤ i := by
      rw [List.length_take]; omega
    have hlen : (a :: as).length + j ≤ (s.take i).length := by
      have := h1.length_le
      simp only [List.length_drop] at this
      omega
    refine findSub_eq_of_min (occ_of_take_occ h1) ?_
    intro k hk hc
    exact h2 k hk (take_occ_of_occ hc (by omega))

/-! ### Facts about `strip_url` and the marker loop -/

/-- `strip_url` always returns a prefix of its input. -/
theorem strip_url_pref (url p : Str) : strip_url url p <+: url := by
  unfold strip_url
  match findSub p url with
  | some i => exact take_pref i url
  | none => exact List.prefix_refl url

/-- After stripping at a nonempty marker's first occurrence, the marker no
longer occurs (the guarded step of the marker loop, lines 141-142). -/
theorem step_absent {p url : Str} (hp : p ≠ []) :
    findSub p (if (findSub p url).isSome then strip_url url p else url) = none := by
  match hfs : findSub p url with
  | none => simp [hfs]
  | some i =>
    obtain ⟨h1, h2⟩ := findSub_some hfs
    simp only [hfs, Option.isSome_some, if_pos]
    unfold strip_url
    rw [hfs, findSub_eq_none_iff]
    intro j hc
    have hj : i ≤ j := by
      by_contra hlt
      exact h2 j (by omega) (occ_of_take_occ hc)
    have hplen : 0 < p.length := List.length_pos.mpr hp
    have := hc.length_le
    simp only [List.length_drop, List.length_take] at this
    omega

/-- The marker loop only ever truncates: its result is a prefix of its
input. -/
theorem stripParams_pref : ∀ (ps : List Str) (url : Str),
    stripParams ps url <+: url := by
  intro ps
  induction ps with
  | nil => intro url; exact List.prefix_refl url
  | cons p ps ih =>
    intro url
    unfold stripParams
    refine (ih _).trans ?_
    by_cases hp : (findSub p url).isSome
    · rw [if_pos hp]; exact strip_url_pref url p
    · rw [if_neg hp]

/-- A marker absent from the input stays absent through the rest of the
marker loop. -/
theorem stripParams_absent_preserved {p url : Str} (ps : List Str)
    (h : findSub p url = none) : findSub p (stripParams ps url) = none :=
  absent_of_pref h (stripParams_pref ps url)

/-- After the marker loop, no nonempty marker of the list occurs in the
result. -/
theorem stripParams_absent : ∀ (ps : List Str), (∀ p ∈ ps, p ≠ []) →
    ∀ (url : Str) (q : Str), q ∈ ps → findSub q (stripParams ps url) = none := by
  intro ps
  induction ps with
  | nil => intro _ url q hq; cases hq
  | cons p ps ih =>
    intro hne url q hq
    unfold stripParams
    rcases List.mem_cons.mp hq with hqp | hqtail
    · subst hqp
      exact stripParams_absent_preserved ps (step_absent (hne q (List.mem_cons_self q ps)))
    · exact ih (fun r hr => hne r (List.mem_cons_of_mem p hr)) _ q hqtail

/-- The marker loop is the identity on a string containing none of the
markers. -/
theorem stripParams_of_absent : ∀ (ps : List Str) (url : Str),
    (∀ p ∈ ps, findSub p url = none) → stripParams ps url = url := by
  intro ps
  induction ps with
  | nil => intro url _; rfl
  | cons p ps ih =>
    intro url h
    unfold stripParams
    have hp : findSub p url = none := h p (List.mem_cons_self p ps)
    rw [if_neg (by simp [hp])]
    exact ih url (fun r hr => h r (List.mem_cons_of_mem p hr))

/-- Unfolding equation for one iteration of the marker loop. -/
theorem stripParams_cons (p : Str) (ps : List Str) (url : Str) :
    stripParams (p :: ps) url =
      stripParams ps (if (findSub p url).isSome then strip_url url p else url) := rfl

/-- When the marker occurs, `strip_url` truncates at its first index. -/
theorem strip_url_eq_take {url p : Str} {i : Nat} (h : findSub p url = some i) :
    strip_url url p = url.take i := by
  unfold strip_url
  rw [h]

/-- When some marker occurs in the input (all markers nonempty), the marker
loop strictly shortens the string, and the result's length is exactly the
index of the first occurrence in the input of one of the markers. -/
theorem stripParams_strict : ∀ (ps : List Str), (∀ p ∈ ps, p ≠ []) →
    ∀ (url : Str), (∃ p ∈ ps, (findSub p url).isSome = true) →
    ∃ q ∈ ps, findSub q url = some ((stripParams ps url).length) ∧
      (stripParams ps url).length < url.length := by
  intro ps
  induction ps with
  | nil =>
    intro _ url h
    obtain ⟨p, hp, _⟩ := h
    cases hp
  | cons c ps ih =>
    intro hne url hex
    by_cases hc : (findSub c url).isSome = true
    · obtain ⟨i, hi⟩ := Option.isSome_iff_exists.mp hc
      have hstep : stripParams (c :: ps) url = stripParams ps (url.take i) := by
        rw [stripParams_cons, if_pos hc, strip_url_eq_take hi]
      obtain ⟨hocc, hmin⟩ := findSub_some hi
      have hclen : 0 < c.length := List.length_pos.mpr (hne c (List.mem_cons_self c ps))
      have hilt : i < url.length := by
        have := hocc.length_le
        simp only [List.length_drop] at this
        omega
      have htakelen : (url.take i).length = i := by
        rw [List.length_take]; omega
      by_cases hex2 : ∃ p ∈ ps, (findSub p (url.take i)).isSome = true
      · obtain ⟨q, hq, hA, hB⟩ :=
          ih (fun r hr => hne r (List.mem_cons_of_mem c hr)) _ hex2
        refine ⟨q, List.mem_cons_of_mem c hq, ?_, ?_⟩
        · rw [hstep]
          exact findSub_take_some hA
        · rw [hstep]
          omega
      · have habs : ∀ p ∈ ps, findSub p (url.take i) = none := by
          intro p hp
          have hnp := hex2
          push_neg at hnp
          have := hnp p hp
          match hfp : findSub p (url.take i) with
          | none => rfl
          | some a => rw [hfp] at this; simp at this
        have hid : stripParams ps (url.take i) = url.take i :=
          stripParams_of_absent ps _ habs
        refine ⟨c, List.mem_cons_self c ps, ?_, ?_⟩
        · rw [hstep, hid, htakelen]
          exact hi
        · rw [hstep, hid, htakelen]
          exact hilt
    · have hstep : stripParams (c :: ps) url = stripParams ps url := by
        rw [stripParams_cons, if_neg hc]
      obtain ⟨p, hp, hps⟩ := hex
      have hptail : p ∈ ps := by
        rcases List.mem_cons.mp hp with h1 | h2
        · subst h1; exact absurd hps hc
        · exact h2
      obtain ⟨q, hq, hA, hB⟩ :=
        ih (fun r hr => hne r (List.mem_cons_of_mem c hr)) url ⟨p, hptail, hps⟩
      exact ⟨q, List.mem_cons_of_mem c hq, by rw [hstep]; exact hA,
        by rw [hstep]; exact hB⟩

/-! ### Claims about URL normalization -/

/-- C3 counterexample: the URL `"?utm=1"` contains the configured marker
`"?utm"`, yet normalization returns the empty string — not a non-empty
prefix as the claim states. -/
theorem C3_counterexample :
    ("?utm".data ∈ STRIP_PARAMETERS ∧
      (findSub ("?utm".data) ("?utm=1".data)).isSome = true) ∧
    normalize ("?utm=1".data) = [] := by
  constructor
  · exact ⟨by decide, by decide⟩
  · decide

/-- C3 (amended): for every URL string containing at least one configured
tracker marker, normalization returns a strict — though possibly empty —
prefix of the URL, whose length is exactly the index of the first
occurrence in the URL of one of the configured markers (so it ends exactly
before that first occurrence). -/
theorem C3_truncates_at_first_marker (url : Str)
    (h : ∃ p ∈ STRIP_PARAMETERS, (findSub p url).isSome = true) :
    normalize url <+: url ∧ normalize url ≠ url ∧
      ∃ q ∈ STRIP_PARAMETERS, findSub q url = some ((normalize url).length) := by
  have hne : ∀ p ∈ STRIP_PARAMETERS, p ≠ ([] : Str) := by decide
  obtain ⟨q, hq, h1, h2⟩ := stripParams_strict STRIP_PARAMETERS hne url h
  refine ⟨stripParams_pref _ url, ?_, q, hq, h1⟩
  intro heq
  have : (normalize url).length = url.length := by rw [heq]
  simp only [normalize] at this
  omega

/-- Witness for C3 at the concrete URL `"https://a.com/x?utm=1"`. -/
theorem C3_truncates_witness :
    (∃ p ∈ STRIP_PARAMETERS,
        (findSub p ("https://a.com/x?utm=1".data)).isSome = true) ∧
    (normalize ("https://a.com/x?utm=1".data) <+: "https://a.com/x?utm=1".data ∧
      normalize ("https://a.com/x?utm=1".data) ≠ "https://a.com/x?utm=1".data ∧
      ∃ q ∈ STRIP_PARAMETERS,
        findSub q ("https://a.com/x?utm=1".data) =
          some ((normalize ("https://a.com/x?utm=1".data)).length)) :=
  ⟨by decide, C3_truncates_at_first_marker ("https://a.com/x?utm=1".data) (by decide)⟩

/-- C6: for every URL string containing none of the configured tracker
markers, the full marker pass is the identity; marker absence is handled
totally, not as an error. -/
theorem C6_no_marker_is_identity (url : Str)
    (h : ∀ p ∈ STRIP_PARAMETERS, findSub p url = none) : normalize url = url :=
  stripParams_of_absent STRIP_PARAMETERS url h

/-- Witness for C6 at the concrete URL `"https://b.com/y"`. -/
theorem C6_no_marker_witness :
    (∀ p ∈ STRIP_PARAMETERS, findSub p ("https://b.com/y".data) = none) ∧
    normalize ("https://b.com/y".data) = "https://b.com/y".data :=
  ⟨by decide, C6_no_marker_is_identity ("https://b.com/y".data) (by decide)⟩

/-- C9: normalization is idempotent — the result of one full marker pass
contains no configured marker, so a second full pass returns it
unchanged. -/
theorem C9_normalize_idempotent (url : Str) :
    (∀ p ∈ STRIP_PARAMETERS, findSub p (normalize url) = none) ∧
    normalize (normalize url) = normalize url := by
  have hne : ∀ p ∈ STRIP_PARAMETERS, p ≠ ([] : Str) := by decide
  have habs : ∀ p ∈ STRIP_PARAMETERS, findSub p (normalize url) = none :=
    fun p hp => stripParams_absent STRIP_PARAMETERS hne url p hp
  exact ⟨habs, stripParams_of_absent STRIP_PARAMETERS (normalize url) habs⟩

/-! ### Facts about the deduplication scan -/

/-- The cache component of one scan iteration. -/
theorem dedupeStep_cache (g : Nat) (cache : List Str) (item : Article) :
    (dedupeStep g cache item).1 =
      if normalize item.given_url ∈ cache then cache
      else cache ++ [normalize item.given_url] := by
  by_cases h : normalize item.given_url ∈ cache
  · simp [dedupeStep, h]
  · simp [dedupeStep, h]

/-- The events of a duplicate iteration: the duplicate report and the
queued deletion. -/
theorem dedupeStep_events_pos (g : Nat) (cache : List Str) (item : Article)
    (h : normalize item.given_url ∈ cache) :
    (dedupeStep g cache item).2 =
      [Event.printDuplicate item.given_url,
       Event.queueDelete g item.item_id] := by
  simp [dedupeStep, h]

/-- The events of a non-duplicate iteration: at most a tracked-URL
report. -/
theorem dedupeStep_events_neg (g : Nat) (cache : List Str) (item : Article)
    (h : normalize item.given_url ∉ cache) :
    (dedupeStep g cache item).2 =
      if normalize item.given_url ≠ item.given_url
      then [Event.printTracked item.given_url] else [] := by
  simp only [dedupeStep]
  rw [if_neg h]

/-- Unfolding equation for one scan iteration. -/
theorem dedupeScan_cons (g : Nat) (item : Article) (rest : List Article)
    (cache : List Str) :
    dedupeScan g (item :: rest) cache =
      ((dedupeScan g rest (dedupeStep g cache item).1).1,
       (dedupeStep g cache item).2 ++
         (dedupeScan g rest (dedupeStep g cache item).1).2) := rfl

/-- The scan splits over list concatenation, threading the cache. -/
theorem dedupeScan_append (g : Nat) : ∀ (l1 l2 : List Article) (cache : List Str),
    dedupeScan g (l1 ++ l2) cache =
      ((dedupeScan g l2 (dedupeScan g l1 cache).1).1,
       (dedupeScan g l1 cache).2 ++ (dedupeScan g l2 (dedupeScan g l1 cache).1).2) := by
  intro l1
  induction l1 with
  | nil => intro l2 cache; rfl
  | cons item rest ih =>
    intro l2 cache
    rw [List.cons_append, dedupeScan_cons, dedupeScan_cons, ih]
    simp [List.append_assoc]

/-- Cache membership after a scan: exactly the initial cache plus the
normalized URLs of the scanned articles. -/
theorem mem_scan_cache (g : Nat) : ∀ (items : List Article) (cache : List Str) (u : Str),
    u ∈ (dedupeScan g items cache).1 ↔
      u ∈ cache ∨ ∃ a ∈ items, normalize a.given_url = u := by
  intro items
  induction items with
  | nil =>
    intro cache u
    simp [dedupeScan]
  | cons item rest ih =>
    intro cache u
    rw [dedupeScan_cons]
    simp only []
    rw [ih, dedupeStep_cache]
    by_cases hmem : normalize item.given_url ∈ cache
    · rw [if_pos hmem]
      constructor
      · rintro (h | ⟨a, ha, hn⟩)
        · exact Or.inl h
        · exact Or.inr ⟨a, List.mem_cons_of_mem item ha, hn⟩
      · rintro (h | ⟨a, ha, hn⟩)
        · exact Or.inl h
        · rcases List.mem_cons.mp ha with ha1 | ha2
          · subst ha1; exact Or.inl (hn ▸ hmem)
          · exact Or.inr ⟨a, ha2, hn⟩
    · rw [if_neg hmem]
      constructor
      · rintro (h | ⟨a, ha, hn⟩)
        · rcases List.mem_append.mp h with h1 | h2
          · exact Or.inl h1
          · refine Or.inr ⟨item, List.mem_cons_self item rest, ?_⟩
            cases List.mem_singleton.mp h2
            rfl
        · exact Or.inr ⟨a, List.mem_cons_of_mem item ha, hn⟩
      · rintro (h | ⟨a, ha, hn⟩)
        · exact Or.inl (List.mem_append.mpr (Or.inl h))
        · rcases List.mem_cons.mp ha with ha1 | ha2
          · subst ha1
            exact Or.inl (List.mem_append.mpr (Or.inr (List.mem_singleton.mpr hn.symm)))
          · exact Or.inr ⟨a, ha2, hn⟩

/-- Every event the scan emits is a duplicate report, a queued deletion on
the global session binding, or a tracked-URL report. -/
theorem scan_event_cases (g : Nat) : ∀ (items : List Article) (cache : List Str)
    (e : Event), e ∈ (dedupeScan g items cache).2 →
    (∃ u, e = Event.printDuplicate u) ∨ (∃ id, e = Event.queueDelete g id) ∨
      (∃ u, e = Event.printTracked u) := by
  intro items
  induction items with
  | nil =>
    intro cache e he
    simp [dedupeScan] at he
  | cons item rest ih =>
    intro cache e he
    rw [dedupeScan_cons] at he
    simp only [List.mem_append] at he
    rcases he with he | he
    · by_cases hmem : normalize item.given_url ∈ cache
      · rw [dedupeStep_events_pos g cache item hmem] at he
        rcases List.mem_cons.mp he with h1 | h2
        · exact Or.inl ⟨item.given_url, h1⟩
        · cases List.mem_singleton.mp h2
          exact Or.inr (Or.inl ⟨item.item_id, rfl⟩)
      · rw [dedupeStep_events_neg g cache item hmem] at he
        by_cases htr : normalize item.given_url ≠ item.given_url
        · rw [if_pos htr] at he
          cases List.mem_singleton.mp he
          exact Or.inr (Or.inr ⟨item.given_url, rfl⟩)
        · rw [if_neg htr] at he
          cases he
    · exact ih _ e he

/-- Unfolding equation for `firstOccurrences`. -/
theorem firstOccurrences_cons (seen : List Str) (u : Str) (rest : List Str) :
    firstOccurrences seen (u :: rest) =
      if u ∈ seen then firstOccurrences seen rest
      else u :: firstOccurrences (seen ++ [u]) rest := rfl

/-- The scan's cache is the initial cache extended by the normalized URLs
of the scanned articles in first-occurrence order. -/
theorem scan_cache_eq_firstOccurrences (g : Nat) :
    ∀ (items : List Article) (cache : List Str),
    (dedupeScan g items cache).1 =
      cache ++ firstOccurrences cache (items.map fun a => normalize a.given_url) := by
  intro items
  induction items with
  | nil =>
    intro cache
    simp [dedupeScan, firstOccurrences]
  | cons item rest ih =>
    intro cache
    rw [dedupeScan_cons]
    simp only [List.map_cons, firstOccurrences_cons]
    rw [ih, dedupeStep_cache]
    by_cases hmem : normalize item.given_url ∈ cache
    · rw [if_pos hmem, if_pos hmem]
    · rw [if_neg hmem, if_neg hmem]
      simp [List.append_assoc]

/-- `firstOccurrences` never repeats an element already kept. -/
theorem firstOccurrences_nodup : ∀ (l : List Str) (seen : List Str), seen.Nodup →
    (seen ++ firstOccurrences seen l).Nodup := by
  intro l
  induction l with
  | nil =>
    intro seen h
    simpa [firstOccurrences] using h
  | cons u rest ih =>
    intro seen h
    rw [firstOccurrences_cons]
    by_cases hmem : u ∈ seen
    · rw [if_pos hmem]
      exact ih seen h
    · rw [if_neg hmem]
      have hdisj : List.Disjoint seen [u] := by
        intro a ha hau
        exact absurd ((List.mem_singleton.mp hau) ▸ ha) hmem
      have h2 : (seen ++ [u]).Nodup :=
        List.nodup_append.mpr ⟨h, List.nodup_singleton u, hdisj⟩
      have h3 := ih (seen ++ [u]) h2
      simpa [List.append_assoc] using h3

/-! ### Claims about the deduplication scan -/

/-- C1: place any record after the earlier records `pre`; the scan's full
trace is the trace over `pre`, then this record's visit events, then the
rest.  The visit queues the record's deletion iff its normalized URL is
already in the seen-URL cache at visit time, iff some earlier record has
the same normalized URL. -/
theorem C1_flagged_iff_earlier (g : Nat) (pre : List Article) (item : Article)
    (post : List Article) :
    ((dedupeScan g (pre ++ item :: post) []).2 =
      (dedupeScan g pre []).2 ++
        ((dedupeStep g (dedupeScan g pre []).1 item).2 ++
          (dedupeScan g post (dedupeStep g (dedupeScan g pre []).1 item).1).2)) ∧
    (Event.queueDelete g item.item_id ∈ (dedupeStep g (dedupeScan g pre []).1 item).2
      ↔ normalize item.given_url ∈ (dedupeScan g pre []).1) ∧
    (normalize item.given_url ∈ (dedupeScan g pre []).1
      ↔ ∃ a ∈ pre, normalize a.given_url = normalize item.given_url) := by
  refine ⟨?_, ?_, ?_⟩
  · rw [dedupeScan_append, dedupeScan_cons]
  · by_cases hmem : normalize item.given_url ∈ (dedupeScan g pre []).1
    · rw [dedupeStep_events_pos _ _ _ hmem]
      simp [hmem]
    · rw [dedupeStep_events_neg _ _ _ hmem]
      constructor
      · intro hin
        by_cases htr : normalize item.given_url ≠ item.given_url
        · rw [if_pos htr] at hin
          simp at hin
        · rw [if_neg htr] at hin
          simp at hin
      · intro hin
        exact absurd hin hmem
  · rw [mem_scan_cache]
    simp

/-- C5: a record none of whose predecessors shares its normalized URL is
never reported as a duplicate and never has a deletion queued during its
visit. -/
theorem C5_first_of_group_not_flagged (g : Nat) (pre : List Article) (item : Article)
    (h : ∀ a ∈ pre, normalize a.given_url ≠ normalize item.given_url) :
    (∀ s id, Event.queueDelete s id ∉ (dedupeStep g (dedupeScan g pre []).1 item).2) ∧
    (∀ u, Event.printDuplicate u ∉ (dedupeStep g (dedupeScan g pre []).1 item).2) := by
  have hmem : normalize item.given_url ∉ (dedupeScan g pre []).1 := by
    rw [mem_scan_cache]
    rintro (hc | ⟨a, ha, hn⟩)
    · simp at hc
    · exact h a ha hn
  by_cases htr : normalize item.given_url ≠ item.given_url
  · rw [dedupeStep_events_neg _ _ _ hmem, if_pos htr]
    exact ⟨fun s id hin => by simp at hin, fun u hin => by simp at hin⟩
  · rw [dedupeStep_events_neg _ _ _ hmem, if_neg htr]
    exact ⟨fun s id hin => by simp at hin, fun u hin => by simp at hin⟩

/-- Witness for C5: the third scenario article has no duplicate among its
predecessor. -/
theorem C5_first_of_group_witness :
    (∀ a ∈ [exItem1], normalize a.given_url ≠ normalize exItem3.given_url) ∧
    ((∀ s id, Event.queueDelete s id ∉
        (dedupeStep 0 (dedupeScan 0 [exItem1] []).1 exItem3).2) ∧
      (∀ u, Event.printDuplicate u ∉
        (dedupeStep 0 (dedupeScan 0 [exItem1] []).1 exItem3).2)) :=
  ⟨by decide, C5_first_of_group_not_flagged 0 [exItem1] exItem3 (by decide)⟩

/-- C7: a record whose normalized URL differs from its original and is not
yet cached produces exactly the tracked-URL report, queues nothing, and
appends its normalized URL to the cache. -/
theorem C7_tracked_report_only (g : Nat) (cache : List Str) (item : Article)
    (hdiff : normalize item.given_url ≠ item.given_url)
    (hnew : normalize item.given_url ∉ cache) :
    dedupeStep g cache item =
      (cache ++ [normalize item.given_url], [Event.printTracked item.given_url]) ∧
    ∀ s id, Event.queueDelete s id ∉ (dedupeStep g cache item).2 := by
  have heq : dedupeStep g cache item =
      (cache ++ [normalize item.given_url], [Event.printTracked item.given_url]) := by
    simp [dedupeStep, hnew, hdiff]
  refine ⟨heq, ?_⟩
  intro s id hin
  rw [heq] at hin
  simp at hin

/-- Witness for C7: the first scenario article, scanned on an empty
cache. -/
theorem C7_tracked_report_witness :
    (normalize exItem1.given_url ≠ exItem1.given_url ∧
      normalize exItem1.given_url ∉ ([] : List Str)) ∧
    (dedupeStep 0 [] exItem1 =
        ([] ++ [normalize exItem1.given_url], [Event.printTracked exItem1.given_url]) ∧
      ∀ s id, Event.queueDelete s id ∉ (dedupeStep 0 [] exItem1).2) :=
  ⟨⟨by decide, by decide⟩, C7_tracked_report_only 0 [] exItem1 (by decide) (by decide)⟩

/-- C10: after scanning any list, the seen-URL cache is exactly the
sequence of distinct normalized URLs in first-occurrence order, and it
contains no repeats. -/
theorem C10_cache_distinct_first_occurrences (g : Nat) (items : List Article) :
    (dedupeScan g items []).1 =
      firstOccurrences [] (items.map fun a => normalize a.given_url) ∧
    ((dedupeScan g items []).1).Nodup := by
  have h1 := scan_cache_eq_firstOccurrences g items []
  simp only [List.nil_append] at h1
  refine ⟨h1, ?_⟩
  rw [h1]
  have h2 := firstOccurrences_nodup (items.map fun a => normalize a.given_url) []
    List.nodup_nil
  simpa using h2

/-! ### Claims about the scoping defect, the confirmation gate and the
empty list -/

/-- The scan never emits a commit event. -/
theorem commit_not_in_scan (g s : Nat) (items : List Article) (cache : List Str) :
    Event.commit s ∉ (dedupeScan g items cache).2 := by
  intro h
  rcases scan_event_cases g items cache _ h with ⟨u, hu⟩ | ⟨id, hu⟩ | ⟨u, hu⟩ <;>
    cases hu

/-- The scan never emits the declined-confirmation report. -/
theorem notSent_not_in_scan (g : Nat) (r : Str) (items : List Article)
    (cache : List Str) : Event.printNotSent r ∉ (dedupeScan g items cache).2 := by
  intro h
  rcases scan_event_cases g items cache _ h with ⟨u, hu⟩ | ⟨id, hu⟩ | ⟨u, hu⟩ <;>
    cases hu

/-- C2, evaluated at a failing input: when `queue_dedupe_actions` is called
with parameter session `1` while the module-global `PocketInstance` binding
is a different session `2`, the duplicate's deletion is queued on session
`2` (the outer-scope binding of source line 148) and never on the passed-in
session `1` — the code contradicts the claimed contract. -/
theorem C2_deletion_targets_global_binding :
    queue_dedupe_actions 1 2 exampleItems =
      [Event.printFound (foundMessage 3),
       Event.printTracked exItem1.given_url,
       Event.printDuplicate exItem2.given_url,
       Event.queueDelete 2 exItem2.item_id] ∧
    (∀ id, Event.queueDelete 1 id ∉ queue_dedupe_actions 1 2 exampleItems) := by
  have hA : queue_dedupe_actions 1 2 exampleItems =
      [Event.printFound (foundMessage 3),
       Event.printTracked exItem1.given_url,
       Event.printDuplicate exItem2.given_url,
       Event.queueDelete 2 exItem2.item_id] := by decide
  refine ⟨hA, ?_⟩
  intro id h
  rw [hA] at h
  simp at h

/-- C4 counterexample: the raw inputs `" y"` (ASCII space) and `"\u00A0y"` (no-break
space) are not exactly the single character `"y"`, yet the script commits
on both (line 167 strips the input before the comparison); and on the
declined input `" n "` the script reports the stripped `"n"`, not the
literal `" n "`. -/
theorem C4_counterexample :
    ((" y".data ≠ "y".data) ∧ Event.commit 0 ∈ main_script 0 [] (" y".data)) ∧
    (("\u00A0y".data ≠ "y".data) ∧
      Event.commit 0 ∈ main_script 0 [] ("\u00A0y".data)) ∧
    (Event.printNotSent ("n".data) ∈ main_script 0 [] (" n ".data) ∧
      Event.printNotSent (" n ".data) ∉ main_script 0 [] (" n ".data)) := by
  refine ⟨⟨by decide, by decide⟩, ⟨by decide, by decide⟩, by decide, by decide⟩

/-- C4 (amended): the commit is sent iff the confirmation input equals
`"y"` after stripping leading and trailing whitespace (case-sensitive);
for any other input the stripped input is reported instead, and in all
cases the script reaches its final status line. -/
theorem C4_commit_iff_stripped_y (g : Nat) (items : List Article) (raw : Str) :
    ((∃ s, Event.commit s ∈ main_script g items raw) ↔ pyStrip raw = "y".data) ∧
    (Event.printNotSent (pyStrip raw) ∈ main_script g items raw ↔
      pyStrip raw ≠ "y".data) ∧
    Event.printFinished ∈ main_script g items raw := by
  by_cases hy : pyStrip raw = "y".data
  · refine ⟨⟨fun _ => hy, fun _ => ⟨g, ?_⟩⟩, ?_, ?_⟩
    · simp [main_script, queue_dedupe_actions, hy]
    · constructor
      · intro h
        exfalso
        simp [main_script, queue_dedupe_actions, hy] at h
        exact notSent_not_in_scan g _ items [] h
      · intro h
        exact absurd hy h
    · simp [main_script, queue_dedupe_actions, hy]
  · refine ⟨⟨?_, fun h => absurd h hy⟩, ?_, ?_⟩
    · rintro ⟨s, hs⟩
      exfalso
      simp [main_script, queue_dedupe_actions, hy] at hs
      exact commit_not_in_scan g s items [] hs
    · exact ⟨fun _ => hy, fun _ => by simp [main_script, queue_dedupe_actions, hy]⟩
    · simp [main_script, queue_dedupe_actions, hy]

/-- C8: on the empty article list the script reports
`"Found 0 articles."`, flags no duplicate, queues no deletion, and still
shows the confirmation prompt. -/
theorem C8_empty_list (g : Nat) (raw : Str) :
    Event.printFound "Found 0 articles." ∈ main_script g [] raw ∧
    (∀ s id, Event.queueDelete s id ∉ main_script g [] raw) ∧
    (∀ u, Event.printDuplicate u ∉ main_script g [] raw) ∧
    Event.promptConfirmation ∈ main_script g [] raw := by
  have hmsg : foundMessage 0 = "Found 0 articles." := by decide
  by_cases hy : pyStrip raw = "y".data
  · refine ⟨?_, ?_, ?_, ?_⟩
    · simp [main_script, queue_dedupe_actions, dedupeScan, hy, hmsg]
    · intro s id h
      simp [main_script, queue_dedupe_actions, dedupeScan, hy] at h
    · intro u h
      simp [main_script, queue_dedupe_actions, dedupeScan, hy] at h
    · simp [main_script, queue_dedupe_actions, dedupeScan, hy]
  · refine ⟨?_, ?_, ?_, ?_⟩
    · simp [main_script, queue_dedupe_actions, dedupeScan, hy, hmsg]
    · intro s id h
      simp [main_script, queue_dedupe_actions, dedupeScan, hy] at h
    · intro u h
      simp [main_script, queue_dedupe_actions, dedupeScan, hy] at h
    · simp [main_script, queue_dedupe_actions, dedupeScan, hy]

end PocketDedupe
